import Mathlib

/-!
Shallow embedding of the mowa storage subsystem (storage.go, config.go) and
verification of the spec's claims about it.

Paths are modelled as lists of characters (`Str`).  The Go standard library
functions used by the code — `strings.Contains`, `strings.HasPrefix`,
`strings.TrimPrefix`, `filepath.Clean`, `filepath.Join`, `filepath.Abs`,
`filepath.Dir` — are embedded below, with `filepath.Clean` given at the level
of `/`-separated path components (the element-wise stack algorithm that the
Go implementation's lazybuf loop computes).  `os.Getwd` is a parameter
(`Option Str`, `none` = failure); the filesystem is an explicit association
list acted on by the read/write handlers.
-/

namespace Mowa

/-- Byte strings of the Go program, modelled as lists of characters. -/
abbrev Str := List Char

def slash : Char := '/'

/-- The path component consisting of a single dot. -/
def dot : Str := ['.']

/-- The path component consisting of two dots. -/
def dotdot : Str := ['.', '.']

/-- Decidable test that the first list is an initial segment of the second.
Embeds Go's `strings.HasPrefix(s, pre)` as `isInitSeg pre s`. -/
def isInitSeg {α : Type} [DecidableEq α] : List α → List α → Bool
  | [], _ => true
  | _ :: _, [] => false
  | a :: as, b :: bs => if a = b then isInitSeg as bs else false

/-- Go `strings.HasPrefix(s, pre)`. -/
def strStarts (pre s : Str) : Bool := isInitSeg pre s

/-- Go `strings.Contains(s, sub)`: `sub` occurs contiguously in `s`. -/
def strContains (sub : Str) : Str → Bool
  | [] => isInitSeg sub []
  | c :: rest => isInitSeg sub (c :: rest) || strContains sub rest

/-- Go `strings.TrimPrefix(s, pre)`. -/
def trimPre (pre s : Str) : Str :=
  if strStarts pre s then s.drop pre.length else s

/-- Split a string at every occurrence of the character `c`
(components may be empty, as in Go's `strings.Split`). -/
def splitOnChar (c : Char) : Str → List Str
  | [] => [[]]
  | a :: rest =>
    let r := splitOnChar c rest
    if a = c then [] :: r
    else (a :: r.headI) :: r.tail

/-- Join path components with `/` separators (no leading or trailing slash). -/
def joinComps : List Str → Str
  | [] => []
  | [e] => e
  | e :: rest => e ++ slash :: joinComps rest

/-- A component is kept by the `Clean` loop if it is neither empty nor `.` . -/
def keepComp (e : Str) : Bool := if e = [] ∨ e = dot then false else true

/-- One step of the `filepath.Clean` stack loop on a single path component
(`stk` holds the output components, most recent first).  Mirrors the
three-way switch in Go's `Clean`: empty and `.` components are skipped; `..`
pops a component when possible (for rooted paths an unmatched `..` is
dropped, for relative paths it is emitted); all other components are
appended. -/
def step (r : Bool) (stk : List Str) (e : Str) : List Str :=
  if e = [] ∨ e = dot then stk
  else if e = dotdot then
    if r then stk.tail
    else
      match stk with
      | [] => [dotdot]
      | t :: s => if t = dotdot then dotdot :: t :: s else s
  else e :: stk

/-- Run the `filepath.Clean` loop over a list of components. -/
def cleanStack (r : Bool) (comps : List Str) (stk : List Str) : List Str :=
  match comps with
  | [] => stk
  | e :: rest => cleanStack r rest (step r stk e)

/-- Go `filepath.IsAbs` on Unix: nonempty and starting with `/`. -/
def isAbs (p : Str) : Bool :=
  match p with
  | [] => false
  | c :: _ => c = slash

/-- Go `filepath.Clean` on Unix: shortest lexically-equivalent path. -/
def clean (p : Str) : Str :=
  if p = [] then dot
  else
    let stk := cleanStack (isAbs p) (splitOnChar slash p) []
    if isAbs p then slash :: joinComps stk.reverse
    else if stk = [] then dot
    else joinComps stk.reverse

/-- Go `filepath.Join(a, b)` on Unix (two arguments): skip leading empty
elements, join the rest with `/` and clean the result. -/
def join2 (a b : Str) : Str :=
  if a ≠ [] then clean (a ++ slash :: b)
  else if b ≠ [] then clean b
  else []

/-- Go `filepath.Abs`: absolute paths are cleaned, relative paths are joined
onto the working directory.  `getwd` is the outcome of `os.Getwd`
(`none` = the call failed). -/
def absPath (getwd : Option Str) (p : Str) : Option Str :=
  if isAbs p then some (clean p)
  else
    match getwd with
    | none => none
    | some wd => some (join2 wd p)

/-- `isValidPath` from storage.go: reject paths containing `..` anywhere,
then reject paths that do not start with `/`. -/
def isValidPath (path : Str) : Bool :=
  if strContains dotdot path then false
  else if !strStarts [slash] path then false
  else true

/-- The code/message pair carried by an `echo.NewHTTPError`. -/
structure HTTPError where
  code : Nat
  message : Str
deriving DecidableEq

/-- Error returned by `validateAndResolvePath` on syntactic rejection. -/
def errInvalidPath : HTTPError :=
  ⟨400, "invalid path: contains forbidden characters or directory traversal".toList⟩

/-- Error returned by `validateAndResolvePath` when the containment check fails. -/
def errOutsideRoot : HTTPError :=
  ⟨400, "path is outside of storage directory".toList⟩

/-- Error returned by `validateAndResolvePath` when `filepath.Abs` fails. -/
def errInternal : HTTPError :=
  ⟨500, "internal server error".toList⟩

/-- `validateAndResolvePath` from storage.go.  `storageDirCfg` plays the role
of `appConfig.Storage.Dir` and `getwd` the role of `os.Getwd` inside
`filepath.Abs`. -/
def validateAndResolvePath (storageDirCfg : Str) (getwd : Option Str) (path : Str) :
    Except HTTPError Str :=
  if !isValidPath path then .error errInvalidPath
  else
    let fullPath := join2 storageDirCfg path
    match absPath getwd storageDirCfg with
    | none => .error errInternal
    | some storageDir =>
      match absPath getwd fullPath with
      | none => .error errInternal
      | some absFullPath =>
        if !strStarts storageDir absFullPath then .error errOutsideRoot
        else .ok absFullPath

/-- Go `filepath.Dir`: strip the final path component, then clean what is
left (on Unix the volume name is empty). -/
def dirOf (p : Str) : Str :=
  clean ((p.reverse.dropWhile (fun c => !(c = slash))).reverse)

/-- A filesystem entry: a regular file (with contents, a readability flag and
the OS error text produced when an unreadable file is read), or a directory. -/
inductive FSEntry where
  | file (content : Str) (readable : Bool) (errText : Str)
  | dir
deriving DecidableEq

/-- The filesystem, as an association list from absolute paths to entries
(the most recently added binding for a path wins). -/
structure FS where
  entries : List (Str × FSEntry)
deriving DecidableEq

def fsLookup (fs : FS) (p : Str) : Option FSEntry :=
  (fs.entries.find? (fun x => x.1 = p)).map (fun x => x.2)

/-- `os.Stat` followed by `os.IsNotExist`: does anything exist at `p`? -/
def fsExists (fs : FS) (p : Str) : Bool :=
  (fsLookup fs p).isSome

/-- `os.ReadFile`: the error value is the raw OS error text. -/
def readFileFS (fs : FS) (p : Str) : Except Str Str :=
  match fsLookup fs p with
  | none => .error "no such file or directory".toList
  | some .dir => .error "is a directory".toList
  | some (.file c readable errText) => if readable then .ok c else .error errText

/-- All ancestors of a directory path, innermost first, computed with the
repeated `filepath.Dir` fixpoint (`fuel` bounds the recursion). -/
def parentChain : Nat → Str → List Str
  | 0, _ => []
  | n + 1, d => if dirOf d = d then [d] else d :: parentChain n (dirOf d)

/-- `os.MkdirAll`: create the directory and all missing parents. -/
def mkdirAll (fs : FS) (d : Str) : FS :=
  ⟨(parentChain (d.length + 1) d).map (fun x => (x, FSEntry.dir)) ++ fs.entries⟩

/-- `os.WriteFile`: write/overwrite a readable regular file. -/
def writeFileFS (fs : FS) (p content : Str) : FS :=
  ⟨(p, FSEntry.file content true []) :: fs.entries⟩

/-- The JSON body of a storage request (`StorageRequest` in models.go;
the `notify` field plays no role in the storage logic). -/
structure StorageRequest where
  path : Str
  content : Str
deriving DecidableEq

/-- The JSON body of a storage response (`StorageResponse` in models.go). -/
structure StorageResponse where
  success : Bool
  content : Str
  error : Str
deriving DecidableEq

/-- The externally visible outcome of a handler: a JSON `StorageResponse`
with a status code, a bare `echo.NewHTTPError`, or a raw string body. -/
inductive HandlerResult where
  | json (status : Nat) (resp : StorageResponse)
  | httpError (e : HTTPError)
  | rawString (status : Nat) (body : Str)
deriving DecidableEq

/-- The HTTP method of the request. -/
inductive Method where
  | get
  | post
  | other
deriving DecidableEq

/-- `handleGetFile` from storage.go: structured read of a resolved path. -/
def handleGetFile (fs : FS) (fullPath : Str) : HandlerResult :=
  if !fsExists fs fullPath then .httpError ⟨404, "file not found".toList⟩
  else
    match readFileFS fs fullPath with
    | .error _ => .json 500 ⟨false, [], "failed to read file".toList⟩
    | .ok content => .json 200 ⟨true, content, []⟩

/-- `handleGetFileRaw` from storage.go: raw read of a resolved path. -/
def handleGetFileRaw (fs : FS) (fullPath : Str) : HandlerResult :=
  if !fsExists fs fullPath then .httpError ⟨404, "file not found".toList⟩
  else
    match readFileFS fs fullPath with
    | .error _ => .httpError ⟨500, "failed to read file".toList⟩
    | .ok content => .rawString 200 content

/-- `handleSaveFile` from storage.go: create the parent directory chain and
write the file (the model's filesystem operations succeed). -/
def handleSaveFile (fs : FS) (fullPath content : Str) : FS × HandlerResult :=
  let fs1 := mkdirAll fs (dirOf fullPath)
  let fs2 := writeFileFS fs1 fullPath content
  (fs2, .json 200 ⟨true, "File saved successfully".toList, []⟩)

/-- `processStorageRequest` from storage.go: resolve, then dispatch on the
HTTP method; resolver errors become JSON responses with the same code and
message. -/
def processStorageRequest (cfg : Str) (getwd : Option Str) (fs : FS)
    (method : Method) (path content : Str) : FS × HandlerResult :=
  match validateAndResolvePath cfg getwd path with
  | .error e => (fs, .json e.code ⟨false, [], e.message⟩)
  | .ok absFullPath =>
    match method with
    | .get => (fs, handleGetFile fs absFullPath)
    | .post => handleSaveFile fs absFullPath content
    | .other => (fs, .json 405 ⟨false, [], "method not allowed".toList⟩)

/-- `processStorageRequestRaw` from storage.go: resolve, then raw read;
resolver errors are returned as bare HTTP errors. -/
def processStorageRequestRaw (cfg : Str) (getwd : Option Str) (fs : FS)
    (path : Str) : HandlerResult :=
  match validateAndResolvePath cfg getwd path with
  | .error e => .httpError e
  | .ok absFullPath => handleGetFileRaw fs absFullPath

/-- `handleStorage` from storage.go: JSON-body entry point (`body = none`
models a request body that fails to bind). -/
def handleStorage (cfg : Str) (getwd : Option Str) (fs : FS) (method : Method)
    (body : Option StorageRequest) : FS × HandlerResult :=
  match body with
  | none => (fs, .json 400 ⟨false, [], "invalid request body".toList⟩)
  | some req =>
    if req.path = [] then (fs, .json 400 ⟨false, [], "path is required".toList⟩)
    else processStorageRequest cfg getwd fs method req.path req.content

/-- `handleStorageWithPath` from storage.go: URL-path entry point;
`pathParam` is the `*` route parameter. -/
def handleStorageWithPath (cfg : Str) (getwd : Option Str) (fs : FS)
    (method : Method) (pathParam : Str) : HandlerResult :=
  if pathParam = [] then .json 400 ⟨false, [], "path is required".toList⟩
  else
    let path := slash :: trimPre [slash] pathParam
    if path = [slash] then .json 400 ⟨false, [], "path is required".toList⟩
    else if !(method = Method.get) then
      .json 405 ⟨false, [],
        "method not allowed - use POST /api/storage with JSON payload for file creation".toList⟩
    else processStorageRequestRaw cfg getwd fs path

/-- `StorageConfig` from models.go. -/
structure StorageConfig where
  dir : Str
deriving DecidableEq

/-- `MessagesConfig` from models.go (`none` models a nil Go map). -/
structure MessagesConfig where
  groups : Option (List (Str × List Str))
deriving DecidableEq

/-- `Config` from models.go. -/
structure Config where
  messages : MessagesConfig
  storage : StorageConfig
deriving DecidableEq

/-- The outcome of reading and YAML-parsing the config file named on the
command line: the read fails, the parse fails, or a `Config` is produced
(with zero values for omitted fields, as in Go's `yaml.Unmarshal`). -/
inductive ConfigSource where
  | readError (osMsg : Str)
  | parseError (yamlMsg : Str)
  | parsed (c : Config)
deriving DecidableEq

/-- `loadConfig` from config.go.  An empty `configPath` means no config file
was given; otherwise `src` is the outcome of reading and parsing it. -/
def loadConfig (configPath : Str) (src : ConfigSource) : Except Str Config :=
  if configPath = [] then
    .ok ⟨⟨some []⟩, ⟨"./storage".toList⟩⟩
  else
    match src with
    | .readError m => .error ("failed to read config file: ".toList ++ m)
    | .parseError m => .error ("failed to parse config file: ".toList ++ m)
    | .parsed c =>
      let c1 := if c.messages.groups = none then { c with messages := ⟨some []⟩ } else c
      let c2 := if c1.storage.dir = [] then { c1 with storage := ⟨"./storage".toList⟩ } else c1
      .ok c2

/-- Spec-modelled (§3 data model): the `/`-separated components of a path,
empty components dropped.  Used only to state what "descendant of the
storage root" means; the program itself never computes it. -/
def pathComps (x : Str) : List Str :=
  (splitOnChar slash x).filter (fun c => !(c = []))

/-- Spec-modelled: `p` is a strict descendant of the absolute path `root`
(both absolute, the components of `root` a proper initial segment of the
components of `p`). -/
def isDescOf (p root : Str) : Bool :=
  isAbs root && isAbs p && !(pathComps root = pathComps p)
    && isInitSeg (pathComps root) (pathComps p)

/-- Spec-modelled: `p` is `root` itself or a descendant of it. -/
def isDescOrSelf (p root : Str) : Bool :=
  isAbs root && isAbs p && isInitSeg (pathComps root) (pathComps p)

/-! Basic lemmas about `isInitSeg`, `strContains`, `splitOnChar` and
`joinComps`. -/

theorem isInitSeg_append_self {α : Type} [DecidableEq α] (x y : List α) :
    isInitSeg x (x ++ y) = true := by
  induction x with
  | nil => rfl
  | cons a as ih => simp [isInitSeg, ih]

theorem isInitSeg_append_left {α : Type} [DecidableEq α] (w a b : List α) :
    isInitSeg (w ++ a) (w ++ b) = isInitSeg a b := by
  induction w with
  | nil => rfl
  | cons c cs ih => simp [isInitSeg, ih]

theorem strContains_cons_of {sub rest : Str} (a : Char)
    (h : strContains sub rest = true) : strContains sub (a :: rest) = true := by
  unfold strContains
  simp [h]

theorem strContains_of_init {sub s : Str} (h : isInitSeg sub s = true) :
    strContains sub s = true := by
  cases s with
  | nil => simpa [strContains] using h
  | cons a rest => simp [strContains, h]

theorem split_ne_nil (c : Char) (s : Str) : splitOnChar c s ≠ [] := by
  cases s with
  | nil => simp [splitOnChar]
  | cons a rest => by_cases h : a = c <;> simp [splitOnChar, h]

theorem split_append (c : Char) (x y : Str) :
    splitOnChar c (x ++ c :: y) = splitOnChar c x ++ splitOnChar c y := by
  induction x with
  | nil => simp [splitOnChar]
  | cons a x' ih =>
    by_cases h : a = c
    · simp [splitOnChar, h, ih]
    · obtain ⟨s, ss, hs⟩ := List.exists_cons_of_ne_nil (split_ne_nil c x')
      simp [splitOnChar, h, ih, hs]

theorem mem_split_no_c {c : Char} {s e : Str} (h : e ∈ splitOnChar c s) : c ∉ e := by
  induction s generalizing e with
  | nil =>
    simp [splitOnChar] at h
    subst h; simp
  | cons a rest ih =>
    by_cases hac : a = c
    · simp [splitOnChar, hac] at h
      rcases h with h | h
      · subst h; simp
      · exact ih h
    · obtain ⟨s0, ss, hs⟩ := List.exists_cons_of_ne_nil (split_ne_nil c rest)
      simp [splitOnChar, hac, hs] at h
      rcases h with h | h
      · subst h
        intro hmem
        rcases List.mem_cons.mp hmem with h | h
        · exact hac h.symm
        · have : s0 ∈ splitOnChar c rest := by rw [hs]; exact List.mem_cons_self _ _
          exact ih this h
      · have : e ∈ splitOnChar c rest := by rw [hs]; exact List.mem_cons_of_mem _ h
        exact ih this

theorem split_headI_init (c : Char) (s : Str) :
    isInitSeg ((splitOnChar c s).headI) s = true := by
  induction s with
  | nil => rfl
  | cons a rest ih =>
    by_cases h : a = c
    · simp [splitOnChar, h, isInitSeg]
    · obtain ⟨s0, ss, hs⟩ := List.exists_cons_of_ne_nil (split_ne_nil c rest)
      rw [hs] at ih
      simp [splitOnChar, h, hs, isInitSeg]
      simpa using ih

theorem mem_split_contains {c : Char} {s e : Str} (h : e ∈ splitOnChar c s)
    (hne : e ≠ []) : strContains e s = true := by
  induction s generalizing e with
  | nil =>
    simp [splitOnChar] at h
    exact absurd h hne
  | cons a rest ih =>
    by_cases hac : a = c
    · simp [splitOnChar, hac] at h
      rcases h with h | h
      · exact absurd h hne
      · exact strContains_cons_of a (ih h hne)
    · obtain ⟨s0, ss, hs⟩ := List.exists_cons_of_ne_nil (split_ne_nil c rest)
      simp [splitOnChar, hac, hs] at h
      rcases h with h | h
      · subst h
        apply strContains_of_init
        have hh := split_headI_init c rest
        rw [hs] at hh
        simp [isInitSeg]
        simpa using hh
      · have : e ∈ splitOnChar c rest := by rw [hs]; exact List.mem_cons_of_mem _ h
        exact strContains_cons_of a (ih this hne)

theorem split_no_c_self {c : Char} {x : Str} (h : c ∉ x) : splitOnChar c x = [x] := by
  induction x with
  | nil => rfl
  | cons a rest ih =>
    have hac : ¬ a = c := fun hh => h (hh ▸ List.mem_cons_self a rest)
    have hcr : c ∉ rest := fun hh => h (List.mem_cons_of_mem a hh)
    simp [splitOnChar, hac, ih hcr]

theorem joinComps_cons₂ (e : Str) {rest : List Str} (h : rest ≠ []) :
    joinComps (e :: rest) = e ++ slash :: joinComps rest := by
  cases rest with
  | nil => exact absurd rfl h
  | cons f fs => rfl

theorem split_joinComps {S : List Str} (hne : S ≠ [])
    (h : ∀ e ∈ S, e ≠ [] ∧ slash ∉ e) :
    splitOnChar slash (joinComps S) = S := by
  induction S with
  | nil => exact absurd rfl hne
  | cons e rest ih =>
    cases rest with
    | nil => exact split_no_c_self (h e (List.mem_cons_self e [])).2
    | cons f fs =>
      rw [joinComps_cons₂ e (by simp)]
      rw [split_append]
      rw [split_no_c_self (h e (List.mem_cons_self _ _)).2]
      rw [ih (by simp) (fun x hx => h x (List.mem_cons_of_mem _ hx))]
      rfl

theorem isInitSeg_joinComps_append (X Y : List Str) :
    isInitSeg (joinComps X) (joinComps (X ++ Y)) = true := by
  induction X with
  | nil => simp [joinComps, isInitSeg]
  | cons e X' ih =>
    cases X' with
    | nil =>
      cases Y with
      | nil => simpa using isInitSeg_append_self (joinComps [e]) []
      | cons y ys =>
        show isInitSeg e (e ++ slash :: joinComps (y :: ys)) = true
        exact isInitSeg_append_self e _
    | cons f fs =>
      have h1 : (f :: fs : List Str) ≠ [] := by simp
      have h2 : ((f :: fs) ++ Y : List Str) ≠ [] := by simp
      rw [joinComps_cons₂ e h1, List.cons_append, joinComps_cons₂ e h2]
      rw [List.append_cons e slash (joinComps (f :: fs))]
      rw [List.append_cons e slash (joinComps ((f :: fs) ++ Y))]
      rw [isInitSeg_append_left]
      exact ih

/-! Lemmas about the `filepath.Clean` stack loop. -/

theorem keep_ne_nil {e : Str} (h : keepComp e = true) : e ≠ [] := by
  intro hx
  subst hx
  exact absurd h (by decide)

theorem keep_of_not_skip {e : Str} (h : ¬ (e = [] ∨ e = dot)) : keepComp e = true := by
  simp [keepComp, h]

theorem cleanStack_append (r : Bool) (A B : List Str) (S : List Str) :
    cleanStack r (A ++ B) S = cleanStack r B (cleanStack r A S) := by
  induction A generalizing S with
  | nil => rfl
  | cons e A' ih => simp [cleanStack, ih]

theorem cleanStack_single (r : Bool) (e : Str) (S : List Str) :
    cleanStack r [e] S = step r S e := rfl

theorem step_skip {e : Str} (r : Bool) (stk : List Str) (h : e = [] ∨ e = dot) :
    step r stk e = stk := by
  simp [step, h]

theorem step_push {e : Str} (r : Bool) (stk : List Str)
    (h1 : keepComp e = true) (h2 : e ≠ dotdot) :
    step r stk e = e :: stk := by
  have h3 : ¬ (e = [] ∨ e = dot) := by
    intro hh
    rw [keepComp, if_pos hh] at h1
    exact absurd h1 (by decide)
  simp [step, h3, h2]

theorem step_dd_pop (r : Bool) (t : Str) (Z : List Str) (ht : t ≠ dotdot) :
    step r (t :: Z) dotdot = Z := by
  cases r
  · simp [step, dot, dotdot]
    intro h
    exact absurd h ht
  · simp [step, dot, dotdot]

theorem cleanStack_filter (r : Bool) (L : List Str) (S : List Str) :
    cleanStack r L S = cleanStack r (L.filter keepComp) S := by
  induction L generalizing S with
  | nil => rfl
  | cons e L' ih =>
    by_cases h : keepComp e = true
    · rw [List.filter_cons_of_pos h]
      show cleanStack r L' (step r S e) = cleanStack r (L'.filter keepComp) (step r S e)
      exact ih _
    · have hor : e = [] ∨ e = dot := by
        by_contra hh
        exact h (keep_of_not_skip hh)
      rw [List.filter_cons_of_neg (by simp [h])]
      show cleanStack r L' (step r S e) = cleanStack r (L'.filter keepComp) S
      rw [step_skip r S hor]
      exact ih _

theorem cleanStack_push_only (r : Bool) {C : List Str} (S : List Str)
    (h : ∀ e ∈ C, keepComp e = true ∧ e ≠ dotdot) :
    cleanStack r C S = C.reverse ++ S := by
  induction C generalizing S with
  | nil => rfl
  | cons e C' ih =>
    show cleanStack r C' (step r S e) = _
    rw [step_push r S (h e (List.mem_cons_self _ _)).1 (h e (List.mem_cons_self _ _)).2]
    rw [ih (e :: S) (fun x hx => h x (List.mem_cons_of_mem _ hx))]
    simp

theorem step_mem (P : Str → Prop) (r : Bool) (stk : List Str) (e : Str)
    (hdd : P dotdot) (hS : ∀ x ∈ stk, P x) (he : keepComp e = true → P e) :
    ∀ x ∈ step r stk e, P x := by
  by_cases hskip : e = [] ∨ e = dot
  · rw [step_skip r stk hskip]
    exact hS
  · by_cases hed : e = dotdot
    · subst hed
      cases stk with
      | nil =>
        cases r
        · rw [show step false [] dotdot = [dotdot] from by simp [step, dot, dotdot]]
          intro x hx
          have := List.mem_singleton.mp hx
          subst this
          exact hdd
        · rw [show step true [] dotdot = [] from by simp [step, dot, dotdot]]
          intro x hx
          cases hx
      | cons t s =>
        by_cases htd : t = dotdot
        · subst htd
          cases r
          · rw [show step false (dotdot :: s) dotdot = dotdot :: dotdot :: s from by
              simp [step, dot, dotdot]]
            intro x hx
            rcases List.mem_cons.mp hx with h | h
            · subst h; exact hdd
            · exact hS x h
          · rw [show step true (dotdot :: s) dotdot = s from by simp [step, dot, dotdot]]
            exact fun x hx => hS x (List.mem_cons_of_mem _ hx)
        · rw [step_dd_pop r t s htd]
          exact fun x hx => hS x (List.mem_cons_of_mem _ hx)
    · rw [step_push r stk (keep_of_not_skip hskip) hed]
      intro x hx
      rcases List.mem_cons.mp hx with h | h
      · subst h; exact he (keep_of_not_skip hskip)
      · exact hS x h

theorem cleanStack_mem (P : Str → Prop) (r : Bool) {L S : List Str}
    (hdd : P dotdot)
    (hS : ∀ x ∈ S, P x)
    (hL : ∀ e ∈ L, keepComp e = true → P e) :
    ∀ x ∈ cleanStack r L S, P x := by
  induction L generalizing S with
  | nil => exact hS
  | cons e L' ih =>
    show ∀ x ∈ cleanStack r L' (step r S e), P x
    exact ih (step_mem P r S e hdd hS (hL e (List.mem_cons_self _ _)))
      (fun e' he' => hL e' (List.mem_cons_of_mem _ he'))

theorem step_true_no_dd (stk : List Str) (e : Str)
    (hS : ∀ x ∈ stk, x ≠ dotdot) :
    ∀ x ∈ step true stk e, x ≠ dotdot := by
  by_cases hskip : e = [] ∨ e = dot
  · rw [step_skip true stk hskip]; exact hS
  · by_cases hed : e = dotdot
    · subst hed
      rw [show step true stk dotdot = stk.tail from by simp [step, dot, dotdot]]
      cases stk with
      | nil => intro x hx; cases hx
      | cons t s => exact fun x hx => hS x (List.mem_cons_of_mem _ hx)
    · rw [step_push true stk (keep_of_not_skip hskip) hed]
      intro x hx
      rcases List.mem_cons.mp hx with h | h
      · subst h; exact hed
      · exact hS x h

theorem cleanStack_true_no_dd {L S : List Str}
    (hS : ∀ x ∈ S, x ≠ dotdot) :
    ∀ x ∈ cleanStack true L S, x ≠ dotdot := by
  induction L generalizing S with
  | nil => exact hS
  | cons e L' ih =>
    show ∀ x ∈ cleanStack true L' (step true S e), x ≠ dotdot
    exact ih (step_true_no_dd S e hS)

theorem cleanStack_absorb (r : Bool) (L : List Str) (S : List Str) :
    cleanStack r L S = cleanStack r (cleanStack false L []).reverse S := by
  induction L using List.reverseRecOn with
  | nil => rfl
  | append_singleton L' e ih =>
    have hMgood : ∀ x ∈ cleanStack false L' [], keepComp x = true :=
      cleanStack_mem (fun x => keepComp x = true) false (by decide) (by simp)
        (fun e' _ hk => hk)
    rw [cleanStack_append r L' [e] S, cleanStack_single, ih]
    rw [cleanStack_append false L' [e] [], cleanStack_single]
    generalize hG : cleanStack false L' [] = M
    rw [hG] at hMgood
    by_cases hskip : e = [] ∨ e = dot
    · rw [step_skip r _ hskip, step_skip false M hskip]
    · by_cases hed : e = dotdot
      · subst hed
        cases M with
        | nil =>
          rw [show step false [] dotdot = [dotdot] from by simp [step, dot, dotdot]]
          rw [show ([dotdot] : List Str).reverse = [dotdot] from rfl]
          rw [cleanStack_single]
          rfl
        | cons t M₀ =>
          by_cases htd : t = dotdot
          · subst htd
            rw [show step false (dotdot :: M₀) dotdot = dotdot :: dotdot :: M₀ from by
              simp [step, dot, dotdot]]
            rw [show (dotdot :: dotdot :: M₀ : List Str).reverse
                = (dotdot :: M₀ : List Str).reverse ++ [dotdot] from by simp]
            rw [cleanStack_append, cleanStack_single]
          · rw [step_dd_pop false t M₀ htd]
            have htk : keepComp t = true := hMgood t (List.mem_cons_self _ _)
            rw [show (t :: M₀ : List Str).reverse = M₀.reverse ++ [t] from by simp]
            rw [cleanStack_append, cleanStack_single]
            rw [step_push r _ htk htd]
            rw [step_dd_pop r t _ htd]
      · have hek : keepComp e = true := keep_of_not_skip hskip
        rw [step_push false M hek hed]
        rw [show (e :: M : List Str).reverse = M.reverse ++ [e] from by simp]
        rw [cleanStack_append, cleanStack_single]

/-! Structure lemmas for `clean`, `join2` and `absPath`. -/

theorem clean_rooted {p : Str} (h : isAbs p = true) :
    clean p = slash :: joinComps (cleanStack true (splitOnChar slash p) []).reverse := by
  have hne : p ≠ [] := by
    cases p with
    | nil => exact absurd h (by decide)
    | cons a l => simp
  unfold clean
  rw [if_neg hne, h]
  simp

theorem clean_not_rooted {p : Str} (h : isAbs p = false) (hne : p ≠ []) :
    clean p = (if cleanStack false (splitOnChar slash p) [] = [] then dot
      else joinComps (cleanStack false (splitOnChar slash p) []).reverse) := by
  unfold clean
  rw [if_neg hne, h]
  simp

theorem stack_elems_good (r : Bool) {L S : List Str}
    (hS : ∀ x ∈ S, keepComp x = true ∧ slash ∉ x)
    (hL : ∀ e ∈ L, slash ∉ e) :
    ∀ x ∈ cleanStack r L S, keepComp x = true ∧ slash ∉ x := by
  apply cleanStack_mem (fun x => keepComp x = true ∧ slash ∉ x) r
  · exact ⟨by decide, by decide⟩
  · exact hS
  · exact fun e he hk => ⟨hk, hL e he⟩

theorem split_slash_cons (J : Str) :
    splitOnChar slash (slash :: J) = [] :: splitOnChar slash J := by
  simp [splitOnChar]

theorem cleanStack_slash_join (r : Bool) {S : List Str}
    (hgood : ∀ x ∈ S, keepComp x = true ∧ slash ∉ x)
    (hdd : ∀ x ∈ S, x ≠ dotdot) :
    cleanStack r (splitOnChar slash (slash :: joinComps S.reverse)) [] = S := by
  rw [split_slash_cons]
  show cleanStack r (splitOnChar slash (joinComps S.reverse)) (step r [] []) = S
  rw [step_skip r [] (Or.inl rfl)]
  cases hS : S with
  | nil => rfl
  | cons x xs =>
    have hrevne : S.reverse ≠ [] := by rw [hS]; simp
    have helems : ∀ e ∈ S.reverse, e ≠ [] ∧ slash ∉ e := by
      intro e he
      have hm := List.mem_reverse.mp he
      exact ⟨keep_ne_nil (hgood e hm).1, (hgood e hm).2⟩
    rw [← hS, split_joinComps hrevne helems]
    rw [cleanStack_push_only r []
      (fun e he => ⟨(hgood e (List.mem_reverse.mp he)).1, hdd e (List.mem_reverse.mp he)⟩)]
    simp

theorem clean_slash_join {S : List Str}
    (hgood : ∀ x ∈ S, keepComp x = true ∧ slash ∉ x)
    (hdd : ∀ x ∈ S, x ≠ dotdot) :
    clean (slash :: joinComps S.reverse) = slash :: joinComps S.reverse := by
  have habs : isAbs (slash :: joinComps S.reverse) = true := by simp [isAbs, slash]
  rw [clean_rooted habs, cleanStack_slash_join true hgood hdd]

theorem isAbs_joinComps_good {X : List Str}
    (h : ∀ e ∈ X, e ≠ [] ∧ slash ∉ e) :
    isAbs (joinComps X) = false := by
  cases X with
  | nil => rfl
  | cons e rest =>
    obtain ⟨a, e', he⟩ := List.exists_cons_of_ne_nil (h e (List.mem_cons_self _ _)).1
    have ha : a ≠ slash := by
      intro hh
      exact (h e (List.mem_cons_self _ _)).2 (by rw [he, hh]; exact List.mem_cons_self _ _)
    cases rest with
    | nil => simp [joinComps, he, isAbs, ha]
    | cons f fs =>
      rw [joinComps_cons₂ e (by simp), he]
      simp [isAbs, ha]

theorem pathComps_slash_join {X : List Str}
    (h : ∀ x ∈ X, x ≠ [] ∧ slash ∉ x) :
    pathComps (slash :: joinComps X) = X := by
  unfold pathComps
  rw [split_slash_cons]
  cases X with
  | nil => rfl
  | cons x xs =>
    rw [split_joinComps (by simp) h]
    rw [List.filter_cons_of_neg (by simp)]
    apply List.filter_eq_self.mpr
    intro a ha
    simp [(h a ha).1]

theorem isAbs_append {a : Char} (l x : Str) :
    isAbs ((a :: l) ++ x) = isAbs (a :: l) := rfl

/-! Facts extracted from `isValidPath` and the main structural lemma about
`validateAndResolvePath`. -/

theorem valid_no_dd {p : Str} (h : isValidPath p = true) :
    strContains dotdot p = false := by
  cases hh : strContains dotdot p
  · rfl
  · unfold isValidPath at h
    rw [if_pos hh] at h
    exact absurd h (by decide)

theorem valid_starts {p : Str} (h : isValidPath p = true) :
    strStarts [slash] p = true := by
  have hc := valid_no_dd h
  cases hs : strStarts [slash] p
  · exfalso
    unfold isValidPath at h
    rw [hc, hs] at h
    exact absurd h (by decide)
  · rfl

theorem valid_ne_nil {p : Str} (h : isValidPath p = true) : p ≠ [] := by
  intro hp
  subst hp
  exact absurd (valid_starts h) (by decide)

theorem resolve_structure (dir : Str) (g : Option Str) (p A F : Str)
    (hdir : dir ≠ [])
    (hg : ∀ wd, g = some wd → isAbs wd = true)
    (hv : isValidPath p = true)
    (hA : absPath g dir = some A)
    (hF : absPath g (join2 dir p) = some F) :
    ∃ T P' : List Str,
      (∀ x ∈ T, keepComp x = true ∧ slash ∉ x) ∧
      (∀ x ∈ P', keepComp x = true ∧ x ≠ dotdot ∧ slash ∉ x) ∧
      A = slash :: joinComps T.reverse ∧
      F = slash :: joinComps (T.reverse ++ P') := by
  have hvnd : strContains dotdot p = false := valid_no_dd hv
  have hP'nd : ∀ e ∈ (splitOnChar slash p).filter keepComp,
      keepComp e = true ∧ e ≠ dotdot ∧ slash ∉ e := by
    intro e he
    have hmem := List.mem_of_mem_filter he
    have hkeep := List.of_mem_filter he
    refine ⟨hkeep, ?_, mem_split_no_c hmem⟩
    intro hdd
    subst hdd
    rw [mem_split_contains hmem (by decide)] at hvnd
    exact absurd hvnd (by decide)
  have hpstack : ∀ (r : Bool) (S : List Str),
      cleanStack r (splitOnChar slash p) S
        = ((splitOnChar slash p).filter keepComp).reverse ++ S := by
    intro r S
    rw [cleanStack_filter]
    exact cleanStack_push_only r S (fun e he => ⟨(hP'nd e he).1, (hP'nd e he).2.1⟩)
  obtain ⟨d0, d', rfl⟩ := List.exists_cons_of_ne_nil hdir
  by_cases hab : isAbs (d0 :: d') = true
  · -- absolute storage dir: filepath.Abs does not consult the working directory
    have hAe : A = clean (d0 :: d') := by
      unfold absPath at hA
      rw [if_pos hab] at hA
      exact (Option.some.inj hA).symm
    have habf : isAbs ((d0 :: d') ++ slash :: p) = true := by
      rw [isAbs_append]
      exact hab
    have hjoin : join2 (d0 :: d') p = clean ((d0 :: d') ++ slash :: p) := by
      unfold join2
      rw [if_pos (by simp)]
    have hSfull : cleanStack true (splitOnChar slash ((d0 :: d') ++ slash :: p)) []
        = ((splitOnChar slash p).filter keepComp).reverse
          ++ cleanStack true (splitOnChar slash (d0 :: d')) [] := by
      rw [split_append, cleanStack_append, hpstack]
    have hfull : join2 (d0 :: d') p
        = slash :: joinComps (((splitOnChar slash p).filter keepComp).reverse
            ++ cleanStack true (splitOnChar slash (d0 :: d')) []).reverse := by
      rw [hjoin, clean_rooted habf, hSfull]
    have hgoodS : ∀ x ∈ ((splitOnChar slash p).filter keepComp).reverse
        ++ cleanStack true (splitOnChar slash (d0 :: d')) [],
        keepComp x = true ∧ slash ∉ x := by
      intro x hx
      rcases List.mem_append.mp hx with hx | hx
      · have := hP'nd x (List.mem_reverse.mp hx)
        exact ⟨this.1, this.2.2⟩
      · exact stack_elems_good true (by simp) (fun e he => mem_split_no_c he) x hx
    have hddS : ∀ x ∈ ((splitOnChar slash p).filter keepComp).reverse
        ++ cleanStack true (splitOnChar slash (d0 :: d')) [], x ≠ dotdot := by
      intro x hx
      rcases List.mem_append.mp hx with hx | hx
      · exact (hP'nd x (List.mem_reverse.mp hx)).2.1
      · exact cleanStack_true_no_dd (by simp) x hx
    have habsfull : isAbs (join2 (d0 :: d') p) = true := by
      rw [hfull]
      simp [isAbs, slash]
    have hFabs : absPath g (join2 (d0 :: d') p) = some (clean (join2 (d0 :: d') p)) := by
      unfold absPath
      rw [if_pos habsfull]
    rw [hFabs] at hF
    have hFe := (Option.some.inj hF).symm
    refine ⟨cleanStack true (splitOnChar slash (d0 :: d')) [],
      (splitOnChar slash p).filter keepComp,
      stack_elems_good true (by simp) (fun e he => mem_split_no_c he), hP'nd, ?_, ?_⟩
    · rw [hAe, clean_rooted hab]
    · rw [hFe, hfull, clean_slash_join hgoodS hddS]
      rw [List.reverse_append, List.reverse_reverse]
  · -- relative storage dir: Getwd must have succeeded with an absolute wd
    have hab' : isAbs (d0 :: d') = false := by
      cases hh : isAbs (d0 :: d')
      · rfl
      · exact absurd hh hab
    rcases g with _ | wd
    · exfalso
      unfold absPath at hA
      rw [if_neg (by simp [hab'])] at hA
      exact absurd hA (by simp)
    · have hwabs : isAbs wd = true := hg wd rfl
      obtain ⟨w0, w', rfl⟩ := List.exists_cons_of_ne_nil (show wd ≠ [] by
        intro hh
        rw [hh] at hwabs
        exact absurd hwabs (by decide))
      have hAe : A = join2 (w0 :: w') (d0 :: d') := by
        unfold absPath at hA
        rw [if_neg (by simp [hab'])] at hA
        exact (Option.some.inj hA).symm
      have hAe2 : A = clean ((w0 :: w') ++ slash :: (d0 :: d')) := by
        rw [hAe]
        unfold join2
        rw [if_pos (by simp)]
      have habswd : isAbs ((w0 :: w') ++ slash :: (d0 :: d')) = true := by
        rw [isAbs_append]
        exact hwabs
      set W := cleanStack true (splitOnChar slash (w0 :: w')) [] with hW
      set T := cleanStack true (splitOnChar slash (d0 :: d')) W with hT
      set Sd := cleanStack false (splitOnChar slash (d0 :: d')) [] with hSd
      have hWgood : ∀ x ∈ W, keepComp x = true ∧ slash ∉ x := by
        rw [hW]
        exact stack_elems_good true (by simp) (fun e he => mem_split_no_c he)
      have hWdd : ∀ x ∈ W, x ≠ dotdot := by
        rw [hW]
        exact cleanStack_true_no_dd (by simp)
      have hTgood : ∀ x ∈ T, keepComp x = true ∧ slash ∉ x := by
        rw [hT]
        exact stack_elems_good true hWgood (fun e he => mem_split_no_c he)
      have hTdd : ∀ x ∈ T, x ≠ dotdot := by
        rw [hT]
        exact cleanStack_true_no_dd hWdd
      have hArend : A = slash :: joinComps T.reverse := by
        rw [hAe2, clean_rooted habswd, split_append, cleanStack_append, ← hW, ← hT]
      have hTalt : T = cleanStack true Sd.reverse W := by
        rw [hT, hSd, cleanStack_absorb true (splitOnChar slash (d0 :: d')) W]
      have habsdirfull : isAbs ((d0 :: d') ++ slash :: p) = false := by
        rw [isAbs_append]
        exact hab'
      have hjoin : join2 (d0 :: d') p = clean ((d0 :: d') ++ slash :: p) := by
        unfold join2
        rw [if_pos (by simp)]
      set Sin := cleanStack false (splitOnChar slash ((d0 :: d') ++ slash :: p)) [] with hSin
      have hSinval : Sin = ((splitOnChar slash p).filter keepComp).reverse ++ Sd := by
        rw [hSin, split_append, cleanStack_append, ← hSd, hpstack]
      have hSingood : ∀ x ∈ Sin, keepComp x = true ∧ slash ∉ x := by
        rw [hSin]
        exact stack_elems_good false (by simp) (fun e he => mem_split_no_c he)
      have hfull : join2 (d0 :: d') p
          = (if Sin = [] then dot else joinComps Sin.reverse) := by
        rw [hjoin, clean_not_rooted habsdirfull (by simp), ← hSin]
      by_cases hSe : Sin = []
      · -- both the dir stack and the path components are empty
        have hPe : ((splitOnChar slash p).filter keepComp) = [] ∧ Sd = [] := by
          rw [hSe] at hSinval
          have hnil := List.append_eq_nil.mp hSinval.symm
          exact ⟨by simpa using hnil.1, hnil.2⟩
        have hfp : join2 (d0 :: d') p = dot := by
          rw [hfull, if_pos hSe]
        have hFv : F = join2 (w0 :: w') dot := by
          rw [hfp] at hF
          unfold absPath at hF
          rw [if_neg (by decide)] at hF
          exact (Option.some.inj hF).symm
        have hFv2 : F = clean ((w0 :: w') ++ slash :: dot) := by
          rw [hFv]
          unfold join2
          rw [if_pos (by simp)]
        have hsplitdot : splitOnChar slash ((w0 :: w') ++ slash :: dot)
            = splitOnChar slash (w0 :: w') ++ [dot] := by
          rw [split_append, split_no_c_self (show slash ∉ dot by decide)]
        have hFrend : F = slash :: joinComps W.reverse := by
          rw [hFv2, clean_rooted (by rw [isAbs_append]; exact hwabs), hsplitdot,
            cleanStack_append, ← hW, cleanStack_single, step_skip true W (Or.inr rfl)]
        have hTW : T = W := by
          rw [hTalt, hPe.2]
          rfl
        refine ⟨T, [], hTgood, by simp, hArend, ?_⟩
        rw [hFrend, hTW]
        simp
      · have hrev_ne : Sin.reverse ≠ [] := by simpa using hSe
        have hfp : join2 (d0 :: d') p = joinComps Sin.reverse := by
          rw [hfull, if_neg hSe]
        have hgoodrev : ∀ e ∈ Sin.reverse, e ≠ [] ∧ slash ∉ e := by
          intro e he
          have hm := hSingood e (List.mem_reverse.mp he)
          exact ⟨keep_ne_nil hm.1, hm.2⟩
        have habsfp : isAbs (joinComps Sin.reverse) = false := isAbs_joinComps_good hgoodrev
        have hFv : F = join2 (w0 :: w') (joinComps Sin.reverse) := by
          rw [hfp] at hF
          unfold absPath at hF
          rw [if_neg (by simp [habsfp])] at hF
          exact (Option.some.inj hF).symm
        have hFv2 : F = clean ((w0 :: w') ++ slash :: joinComps Sin.reverse) := by
          rw [hFv]
          unfold join2
          rw [if_pos (by simp)]
        have hsplitSin : splitOnChar slash (joinComps Sin.reverse) = Sin.reverse :=
          split_joinComps hrev_ne hgoodrev
        have hpush : cleanStack true ((splitOnChar slash p).filter keepComp)
            (cleanStack true Sd.reverse W)
            = ((splitOnChar slash p).filter keepComp).reverse
              ++ cleanStack true Sd.reverse W :=
          cleanStack_push_only true _ (fun e he => ⟨(hP'nd e he).1, (hP'nd e he).2.1⟩)
        have hstackF : cleanStack true
            (splitOnChar slash ((w0 :: w') ++ slash :: joinComps Sin.reverse)) []
            = ((splitOnChar slash p).filter keepComp).reverse ++ T := by
          rw [split_append, hsplitSin, cleanStack_append, ← hW]
          rw [hSinval, List.reverse_append, List.reverse_reverse]
          rw [cleanStack_append, hpush, ← hTalt]
        have hFrend : F = slash :: joinComps
            (T.reverse ++ (splitOnChar slash p).filter keepComp) := by
          rw [hFv2, clean_rooted (by rw [isAbs_append]; exact hwabs), hstackF]
          rw [List.reverse_append, List.reverse_reverse]
        exact ⟨T, (splitOnChar slash p).filter keepComp, hTgood, hP'nd, hArend, hFrend⟩

theorem validate_eval {dir : Str} {g : Option Str} {p A F : Str}
    (hv : isValidPath p = true)
    (hA : absPath g dir = some A)
    (hF : absPath g (join2 dir p) = some F) :
    validateAndResolvePath dir g p
      = (if strStarts A F = true then .ok F else .error errOutsideRoot) := by
  simp only [validateAndResolvePath, hv, hA, hF, Bool.not_true]
  cases hsw : strStarts A F <;> simp [hsw]

theorem validate_ok_elim {dir : Str} {g : Option Str} {p rp : Str}
    (h : validateAndResolvePath dir g p = .ok rp) :
    isValidPath p = true ∧ ∃ A, absPath g dir = some A ∧
      absPath g (join2 dir p) = some rp ∧ strStarts A rp = true := by
  unfold validateAndResolvePath at h
  split at h
  · exact absurd h (by simp)
  · rename_i hvcond
    split at h
    · exact absurd h (by simp)
    · rename_i A hA
      dsimp only at h
      split at h
      · exact absurd h (by simp)
      · rename_i F hF
        split at h
        · exact absurd h (by simp)
        · rename_i hswcond
          have hrp : F = rp := Except.ok.inj h
          subst hrp
          refine ⟨?_, A, hA, hF, ?_⟩
          · cases hvv : isValidPath p
            · exfalso
              rw [hvv] at hvcond
              exact hvcond (by decide)
            · rfl
          · cases hsw : strStarts A F
            · exfalso
              rw [hsw] at hswcond
              exact hswcond (by decide)
            · rfl

theorem mem_parentChain_self (n : Nat) (d : Str) : d ∈ parentChain (n + 1) d := by
  unfold parentChain
  split
  · exact List.mem_singleton.mpr rfl
  · exact List.mem_cons_self _ _

/-! The claims. -/

/-- C1 (amended): whenever `validateAndResolvePath` succeeds — for a
non-empty configured storage directory and an absolute working directory,
as guaranteed by `loadConfig` and `os.Getwd` — the resolved path is the
canonicalized storage root itself or a descendant of it; contrapositively,
a computed path that is neither is never returned.  The claim's stronger
"is a descendant" fails (see the counterexample): the logical path `/.`
resolves to the storage root itself. -/
theorem C1_resolved_within (dir : Str) (g : Option Str) (p rp : Str)
    (hdir : dir ≠ [])
    (hg : ∀ wd, g = some wd → isAbs wd = true)
    (h : validateAndResolvePath dir g p = .ok rp) :
    ∃ A, absPath g dir = some A ∧ isDescOrSelf rp A = true := by
  obtain ⟨hv, A, hA, hF, _⟩ := validate_ok_elim h
  obtain ⟨T, P', hT, hP, hAe, hFe⟩ := resolve_structure dir g p A rp hdir hg hv hA hF
  refine ⟨A, hA, ?_⟩
  rw [hAe, hFe]
  have hgoodT : ∀ x ∈ T.reverse, x ≠ [] ∧ slash ∉ x := by
    intro x hx
    have hm := hT x (List.mem_reverse.mp hx)
    exact ⟨keep_ne_nil hm.1, hm.2⟩
  have hgoodTP : ∀ x ∈ T.reverse ++ P', x ≠ [] ∧ slash ∉ x := by
    intro x hx
    rcases List.mem_append.mp hx with hx | hx
    · exact hgoodT x hx
    · exact ⟨keep_ne_nil (hP x hx).1, (hP x hx).2.2⟩
  unfold isDescOrSelf
  rw [pathComps_slash_join hgoodT, pathComps_slash_join hgoodTP]
  simp [isAbs, slash, isInitSeg_append_self]

/-- C1 counterexample: with storage root `/s`, the valid logical path `/.`
resolves successfully to `/s` itself, which is not a (strict) descendant of
the canonicalized storage root `/s`. -/
theorem C1_cex_root_itself :
    validateAndResolvePath ("/s".toList) none ("/.".toList) = .ok ("/s".toList)
      ∧ isDescOf ("/s".toList) ("/s".toList) = false :=
  ⟨rfl, by decide⟩

/-- C1 witness: a concrete successful resolution that lies within the
canonicalized storage root. -/
theorem C1_w :
    ∃ A, absPath (some ("/srv".toList)) ("./storage".toList) = some A ∧
      isDescOrSelf ("/srv/storage/a/b.txt".toList) A = true :=
  C1_resolved_within ("./storage".toList) (some ("/srv".toList)) ("/a/b.txt".toList)
    ("/srv/storage/a/b.txt".toList) (by decide)
    (by intro wd hw; cases hw; decide) (by rfl)

/-- C2: any logical path containing the two-character substring `..` is
rejected by `validateAndResolvePath` with the InvalidPath error, for every
storage directory and for every outcome of `os.Getwd` — in particular when
the working directory is unavailable — so the rejection is decided before
any filesystem interaction (join, canonicalization and the containment
check are never consulted). -/
theorem C2_traversal_rejected (dir : Str) (g : Option Str) (p : Str)
    (h : strContains dotdot p = true) :
    validateAndResolvePath dir g p = .error errInvalidPath := by
  have hval : isValidPath p = false := by
    unfold isValidPath
    rw [if_pos h]
  unfold validateAndResolvePath
  rw [hval]
  rfl

/-- C2 witness: the spec's scenario 2. -/
theorem C2_w :
    validateAndResolvePath ("/srv/mowa/storage".toList) none
      ("/../../etc/passwd".toList) = .error errInvalidPath :=
  C2_traversal_rejected _ _ _ (by decide)

/-- C3: any logical path that does not start with `/` is rejected by
`validateAndResolvePath` with the InvalidPath error, for every storage
directory and every outcome of `os.Getwd`. -/
theorem C3_relative_rejected (dir : Str) (g : Option Str) (p : Str)
    (h : strStarts [slash] p = false) :
    validateAndResolvePath dir g p = .error errInvalidPath := by
  have hval : isValidPath p = false := by
    cases hc : strContains dotdot p
    · simp [isValidPath, hc, h]
    · simp [isValidPath, hc]
  unfold validateAndResolvePath
  rw [hval]
  rfl

/-- C3 witness: a relative logical path is rejected. -/
theorem C3_w :
    validateAndResolvePath ("/srv".toList) none ("etc/passwd".toList)
      = .error errInvalidPath :=
  C3_relative_rejected _ _ _ (by decide)

/-- C4: for a syntactically valid logical path, when both `filepath.Abs`
computations succeed, `validateAndResolvePath` accepts exactly when the
canonical candidate path has the canonical storage root as a string prefix,
and on acceptance returns that canonical candidate path (which then has the
canonical storage root as a prefix by the accepted condition). -/
theorem C4_containment_decides (dir : Str) (g : Option Str) (p A F : Str)
    (hv : isValidPath p = true)
    (hA : absPath g dir = some A)
    (hF : absPath g (join2 dir p) = some F) :
    validateAndResolvePath dir g p
      = (if strStarts A F = true then .ok F else .error errOutsideRoot) :=
  validate_eval hv hA hF

/-- C4 witness: the spec's scenario 1 — storage root `/srv/mowa/storage`
and logical path `/a/b.txt` are accepted with resolved path
`/srv/mowa/storage/a/b.txt`. -/
theorem C4_w :
    validateAndResolvePath ("/srv/mowa/storage".toList) none ("/a/b.txt".toList)
      = .ok ("/srv/mowa/storage/a/b.txt".toList) := by
  rw [C4_containment_decides ("/srv/mowa/storage".toList) none ("/a/b.txt".toList)
    ("/srv/mowa/storage".toList) ("/srv/mowa/storage/a/b.txt".toList)
    (by decide) (by rfl) (by rfl)]
  rfl

/-- C5: the three rejection reasons of the resolver are pairwise distinct
observable outcomes — InvalidPath is a 400 client error naming forbidden
characters/traversal, OutsideRoot is a distinct 400 client error
"path is outside of storage directory", and ResolutionFailure is a 500
server error whose externally visible message is the fixed generic string
"internal server error" (the model's `absPath` failure carries no OS error
text at all, so none can reach the response); each is reachable, and
`processStorageRequest` surfaces the code and message unchanged. -/
theorem C5_error_taxonomy :
    (errInvalidPath ≠ errOutsideRoot ∧ errInvalidPath ≠ errInternal
      ∧ errOutsideRoot ≠ errInternal)
    ∧ errInvalidPath.code = 400 ∧ errOutsideRoot.code = 400 ∧ errInternal.code = 500
    ∧ errInternal.message = "internal server error".toList
    ∧ processStorageRequest ("/s".toList) none ⟨[]⟩ .get ("etc".toList) []
        = (⟨[]⟩, .json 400 ⟨false, [], errInvalidPath.message⟩)
    ∧ processStorageRequest ("storage".toList) none ⟨[]⟩ .get ("/a".toList) []
        = (⟨[]⟩, .json 500 ⟨false, [], errInternal.message⟩)
    ∧ (∃ dir g p, validateAndResolvePath dir g p = .error errOutsideRoot) :=
  ⟨⟨by decide, by decide, by decide⟩, by decide, by decide, by decide, by decide,
    by decide, by decide, ⟨"a/..".toList, some [], "/b".toList, rfl⟩⟩

/-- C6 counterexample: a JSON-body request with logical path exactly `/` is
not rejected with the "path is required" client error by `handleStorage`
(it is passed to the resolver and, here, ends in a 404), refuting the claim
that both handlers reject `/` that way. -/
theorem C6_cex_json_handler_slash :
    handleStorage ("/s".toList) none ⟨[]⟩ .get (some ⟨"/".toList, []⟩)
      ≠ (⟨[]⟩, .json 400 ⟨false, [], "path is required".toList⟩) := by
  decide

/-- C6 (amended): only the URL-path handler rejects the logical path `/`
with the "path is required" client error; the JSON-body handler rejects
only the empty path, and a body path `/` — although it passes the
resolver-level syntactic checks — is forwarded unchanged to
`processStorageRequest`. -/
theorem C6_amended_slash_handling (cfg : Str) (g : Option Str) (fs : FS)
    (m : Method) (c : Str) :
    handleStorageWithPath cfg g fs m ("/".toList)
        = .json 400 ⟨false, [], "path is required".toList⟩
    ∧ handleStorage cfg g fs m (some ⟨"/".toList, c⟩)
        = processStorageRequest cfg g fs m ("/".toList) c
    ∧ isValidPath ("/".toList) = true :=
  ⟨rfl, rfl, rfl⟩

/-- C7: reading a validated resolved path at which nothing exists yields
the NotFound outcome (404 "file not found"), in both the structured and the
raw read paths, and that outcome is distinct from the ResolutionFailure
outcome; a file that exists but is unreadable yields an internal-error
outcome whose message is the fixed string "failed to read file",
independent of the underlying OS error text `et`. -/
theorem C7_read_error_taxonomy (cfg : Str) (g : Option Str) (p rp : Str) (fs : FS)
    (h1 : validateAndResolvePath cfg g p = .ok rp)
    (h2 : fsLookup fs rp = none)
    (fs2 : FS) (rp2 c et : Str)
    (h3 : fsLookup fs2 rp2 = some (.file c false et)) :
    processStorageRequest cfg g fs .get p []
        = (fs, .httpError ⟨404, "file not found".toList⟩)
    ∧ processStorageRequestRaw cfg g fs p = .httpError ⟨404, "file not found".toList⟩
    ∧ (HandlerResult.httpError ⟨404, "file not found".toList⟩
        ≠ .json errInternal.code ⟨false, [], errInternal.message⟩)
    ∧ handleGetFile fs2 rp2 = .json 500 ⟨false, [], "failed to read file".toList⟩
    ∧ handleGetFileRaw fs2 rp2 = .httpError ⟨500, "failed to read file".toList⟩ := by
  refine ⟨?_, ?_, by decide, ?_, ?_⟩
  · simp [processStorageRequest, h1, handleGetFile, fsExists, h2]
  · simp [processStorageRequestRaw, h1, handleGetFileRaw, fsExists, h2]
  · simp [handleGetFile, fsExists, h3, readFileFS]
  · simp [handleGetFileRaw, fsExists, h3, readFileFS]

/-- C7 witness: the spec's scenario 5 — reading `/missing.txt` under an
existing storage root gives NotFound. -/
theorem C7_w :
    processStorageRequest ("/s".toList) none ⟨[("/s".toList, .dir)]⟩ .get
        ("/missing.txt".toList) []
      = (⟨[("/s".toList, .dir)]⟩, .httpError ⟨404, "file not found".toList⟩) :=
  (C7_read_error_taxonomy ("/s".toList) none ("/missing.txt".toList)
    ("/s/missing.txt".toList) ⟨[("/s".toList, .dir)]⟩ (by rfl) (by rfl)
    ⟨[("/s/x".toList, .file "secret".toList false "permission denied".toList)]⟩
    ("/s/x".toList) ("secret".toList) ("permission denied".toList) (by rfl)).1

/-- C10: a write request whose content is absent or empty (both bind to the
empty string) is never rejected for that reason: for any path accepted by
the resolver, the JSON handler forwards it, the save handler creates the
missing parent-directory chain, writes a zero-length file at the resolved
path and returns the success response. -/
theorem C10_empty_content_write (cfg : Str) (g : Option Str) (fs : FS) (p rp : Str)
    (h : validateAndResolvePath cfg g p = .ok rp) :
    handleStorage cfg g fs .post (some ⟨p, []⟩)
        = processStorageRequest cfg g fs .post p []
    ∧ ∃ fs', processStorageRequest cfg g fs .post p []
        = (fs', .json 200 ⟨true, "File saved successfully".toList, []⟩)
        ∧ fsLookup fs' rp = some (.file [] true [])
        ∧ fsExists fs' (dirOf rp) = true := by
  have hv := (validate_ok_elim h).1
  have hp : p ≠ [] := valid_ne_nil hv
  constructor
  · simp [handleStorage, hp]
  · refine ⟨writeFileFS (mkdirAll fs (dirOf rp)) rp [], ?_, ?_, ?_⟩
    · simp [processStorageRequest, h, handleSaveFile]
    · unfold fsLookup writeFileFS
      rw [List.find?_cons_of_pos _ (by simp)]
      rfl
    · have hmem : ((dirOf rp, FSEntry.dir) : Str × FSEntry) ∈
          (writeFileFS (mkdirAll fs (dirOf rp)) rp []).entries := by
        unfold writeFileFS mkdirAll
        apply List.mem_cons_of_mem
        apply List.mem_append_left
        exact List.mem_map.mpr ⟨dirOf rp, mem_parentChain_self _ _, rfl⟩
      unfold fsExists fsLookup
      have hsome : ((writeFileFS (mkdirAll fs (dirOf rp)) rp []).entries.find?
          (fun x => x.1 = dirOf rp)).isSome := by
        rw [List.find?_isSome]
        exact ⟨_, hmem, by simp⟩
      obtain ⟨y, hy⟩ := Option.isSome_iff_exists.mp hsome
      rw [hy]
      rfl

/-- C10 witness: the spec's scenario 4 with empty content — writing to
`/new/deep/dir/file.txt` under `/s` is forwarded by the JSON handler. -/
theorem C10_w :
    handleStorage ("/s".toList) none ⟨[]⟩ .post
        (some ⟨"/new/deep/dir/file.txt".toList, []⟩)
      = processStorageRequest ("/s".toList) none ⟨[]⟩ .post
        ("/new/deep/dir/file.txt".toList) [] :=
  (C10_empty_content_write ("/s".toList) none ⟨[]⟩ ("/new/deep/dir/file.txt".toList)
    ("/s/new/deep/dir/file.txt".toList) (by rfl)).1

/-- C8: when no config file is given, or the config file omits the storage
dir field (so YAML unmarshalling leaves it empty), `loadConfig` returns a
configuration whose storage directory is the default `./storage`. -/
theorem C8_default_storage_dir (src : ConfigSource) (path : Str) (c : Config)
    (hdir : c.storage.dir = []) :
    (loadConfig [] src).map (fun cf => cf.storage.dir) = .ok ("./storage".toList)
    ∧ (loadConfig path (.parsed c)).map (fun cf => cf.storage.dir)
        = .ok ("./storage".toList) := by
  constructor
  · rfl
  · by_cases hp : path = []
    · subst hp
      rfl
    · by_cases hgr : c.messages.groups = none
      · simp [loadConfig, hp, hdir, hgr, Except.map]
      · simp [loadConfig, hp, hdir, hgr, Except.map]

/-- C8 witness: an unreadable config path falls back at the call site, and
a parsed config with an omitted storage dir gets the default. -/
theorem C8_w :
    (loadConfig [] (.readError [])).map (fun cf => cf.storage.dir)
        = .ok ("./storage".toList)
    ∧ (loadConfig ("/etc/mowa.yaml".toList) (.parsed ⟨⟨none⟩, ⟨[]⟩⟩)).map
        (fun cf => cf.storage.dir) = .ok ("./storage".toList) :=
  C8_default_storage_dir (.readError []) ("/etc/mowa.yaml".toList) ⟨⟨none⟩, ⟨[]⟩⟩ rfl

/-- C9: for every syntactically valid logical path, under the environment
contracts that the configured storage directory is non-empty (guaranteed by
`loadConfig`) and that `os.Getwd`, when consulted successfully, returns an
absolute path, the canonical candidate path always has the canonical
storage directory as a string prefix whenever both `filepath.Abs`
computations succeed — so resolution succeeds and the OutsideRoot branch
("path is outside of storage directory") is unreachable for valid input. -/
theorem C9_outside_unreachable (dir : Str) (g : Option Str) (p A F : Str)
    (hdir : dir ≠ [])
    (hg : ∀ wd, g = some wd → isAbs wd = true)
    (hv : isValidPath p = true)
    (hA : absPath g dir = some A)
    (hF : absPath g (join2 dir p) = some F) :
    strStarts A F = true ∧ validateAndResolvePath dir g p = .ok F := by
  obtain ⟨T, P', hT, hP, hAe, hFe⟩ := resolve_structure dir g p A F hdir hg hv hA hF
  have hsw : strStarts A F = true := by
    rw [hAe, hFe]
    show isInitSeg (slash :: joinComps T.reverse)
      (slash :: joinComps (T.reverse ++ P')) = true
    simp [isInitSeg, isInitSeg_joinComps_append]
  refine ⟨hsw, ?_⟩
  rw [validate_eval hv hA hF, if_pos hsw]

/-- C9 witness: the default relative storage dir `./storage` under working
directory `/srv/mowa` with logical path `/a/b.txt`. -/
theorem C9_w :
    strStarts ("/srv/mowa/storage".toList) ("/srv/mowa/storage/a/b.txt".toList) = true
    ∧ validateAndResolvePath ("./storage".toList) (some ("/srv/mowa".toList))
        ("/a/b.txt".toList) = .ok ("/srv/mowa/storage/a/b.txt".toList) :=
  C9_outside_unreachable ("./storage".toList) (some ("/srv/mowa".toList))
    ("/a/b.txt".toList) ("/srv/mowa/storage".toList)
    ("/srv/mowa/storage/a/b.txt".toList) (by decide)
    (by intro wd hw; cases hw; decide) (by decide) (by rfl) (by rfl)

end Mowa
